import Mathlib

/-!
Shallow embedding of the one-shot differentiable NAS components of the
repository (nni/retiarii/oneshot/pytorch/differentiable.py and
nni/retiarii/oneshot/pytorch/utils.py): the DARTS-style continuous-relaxation
choice modules, the ProxylessNAS-style sampled-path choice modules with their
hand-derived architecture gradient, the bi-level training step of DartsModel,
architecture-optimizer configuration, the module replacement engine, and the
interleaved train/val batch supplier.

Tensors are modelled as rational-valued vectors (Fin n -> Q).  The softmax
exponential is abstracted as a parameter e : Q -> Q, so that every definition
stays executable; instantiating e with the real exponential recovers the
numeric softmax, and no statement below depends on the choice of e beyond
positivity where stated.  Candidate operations are modelled as linear maps
(matrices over Q) exactly where a claim talks about back-propagation, because
the vector-Jacobian product of a linear map is itself expressible in closed
form; elsewhere candidates are arbitrary functions.  The random draw of
torch.multinomial is modelled as an oracle argument supplying the drawn index.
-/

namespace NasSpec

/-- Python-level exceptions surfaced by the embedded code paths. -/
inductive PyErr where
  | notImplementedError : PyErr
  | attributeError : String → PyErr
  | assertionError : PyErr
deriving DecidableEq, Repr

/-- Softmax with the exponential abstracted: entry i is e (a i) / sum of e (a j).
Mirrors F.softmax(alpha, -1) as used throughout differentiable.py. -/
def softmaxWith (e : ℚ → ℚ) {n : ℕ} (a : Fin n → ℚ) : Fin n → ℚ :=
  fun i => e (a i) / ∑ j, e (a j)

/-- DartsLayerChoice.forward (differentiable.py lines 16-19): evaluate every
candidate on the input (op_results), multiply by the softmax weights broadcast
over the tensor dimensions, and sum over the candidate dimension. -/
def dartsLayerForward (e : ℚ → ℚ) {m Li Lo : ℕ}
    (ops : Fin m → (Fin Li → ℚ) → (Fin Lo → ℚ)) (alpha : Fin m → ℚ)
    (x : Fin Li → ℚ) : Fin Lo → ℚ :=
  let op_results : Fin m → Fin Lo → ℚ := fun i => ops i x
  let w := softmaxWith e alpha
  fun o => ∑ i, w i * op_results i o

/-- DartsInputChoice.forward (differentiable.py lines 44-47): stack the input
tensors and combine them with the softmax weights over alpha. -/
def dartsInputForward (e : ℚ → ℚ) {m L : ℕ} (alpha : Fin m → ℚ)
    (inputs : Fin m → Fin L → ℚ) : Fin L → ℚ :=
  let w := softmaxWith e alpha
  fun o => ∑ i, w i * inputs i o

/-- Inner product of two vectors, i.e. torch.sum(a * b) for same-shape tensors. -/
def dotF {n : ℕ} (a b : Fin n → ℚ) : ℚ := ∑ i, a i * b i

/-- A candidate operation modelled as a linear map: row i of the matrix gives
output coordinate i. -/
def applyLin {p q : ℕ} (A : Fin p → Fin q → ℚ) (x : Fin q → ℚ) : Fin p → ℚ :=
  fun i => ∑ j, A i j * x j

/-- The vector-Jacobian product of the linear candidate A at any input, with
incoming cotangent g: this is what torch.autograd.grad(output, detached_x,
grad_output) returns when output = A . detached_x was built under
torch.enable_grad by run_func (differentiable.py line 146). -/
def vjpLin {p q : ℕ} (A : Fin p → Fin q → ℚ) (g : Fin p → ℚ) : Fin q → ℚ :=
  fun j => ∑ i, g i * A i j

/-- run_function of ProxylessLayerChoice.forward (lines 162-165): run only the
candidate at active_id on the (detached) input. -/
def plRunFunction {n p q : ℕ} (ops : Fin n → Fin p → Fin q → ℚ) (active : Fin n) :
    (Fin q → ℚ) → (Fin p → ℚ) :=
  fun x => applyLin (ops active) x

/-- backward_function of ProxylessLayerChoice.forward (lines 167-179): under
torch.no_grad, for every candidate k take out_k = ops[k](detached_x) (reusing
the saved output when k is the active one) and set binary_grads[k] =
torch.sum(out_k * grad_output).  No gradient w.r.t. any candidate parameter is
produced; only forward evaluations are used. -/
def plBackwardFunction {n p q : ℕ} (ops : Fin n → Fin p → Fin q → ℚ) (active : Fin n) :
    (Fin q → ℚ) → (Fin p → ℚ) → (Fin p → ℚ) → (Fin n → ℚ) :=
  fun dx out grad_output => fun k =>
    dotF (if k = active then out else applyLin (ops k) dx) grad_output

/-- _ArchGradientFunction.forward (lines 130-140): detach the input (same
values, cut from the surrounding graph), run run_func on it, save
(detached_x, output) for backward, and return the output values. -/
def archGradForward {p q : ℕ} (run_func : (Fin q → ℚ) → (Fin p → ℚ))
    (x : Fin q → ℚ) : (Fin p → ℚ) × ((Fin q → ℚ) × (Fin p → ℚ)) :=
  let detached_x := x
  let output := run_func detached_x
  (output, (detached_x, output))

/-- _ArchGradientFunction.backward (lines 142-150) as instantiated by
ProxylessLayerChoice with linear candidates: grad_x is the vector-Jacobian
product through the single executed candidate (torch.autograd.grad restricted
to the graph built by run_func), and binary_grads comes from backward_func on
the saved pair. -/
def archGradBackward {n p q : ℕ} (ops : Fin n → Fin p → Fin q → ℚ) (active : Fin n)
    (saved : (Fin q → ℚ) × (Fin p → ℚ)) (grad_output : Fin p → ℚ) :
    (Fin q → ℚ) × (Fin n → ℚ) :=
  (vjpLin (ops active) grad_output,
   plBackwardFunction ops active saved.1 saved.2 grad_output)

/-- Training-mode ProxylessLayerChoice.forward (lines 160-186): apply the arch
gradient function with run_function at the currently sampled index. -/
def proxylessTrainCompute {n p q : ℕ} (ops : Fin n → Fin p → Fin q → ℚ)
    (sampled : Fin n) (x : Fin q → ℚ) :
    (Fin p → ℚ) × ((Fin q → ℚ) × (Fin p → ℚ)) :=
  archGradForward (plRunFunction ops sampled) x

/-- The backward pass that autograd invokes for the training-mode forward:
it receives the saved (detached input, output) pair and an incoming output
gradient, and produces (input gradient, binary-gate gradient). -/
def proxylessTrainBackward {n p q : ℕ} (ops : Fin n → Fin p → Fin q → ℚ)
    (sampled : Fin n) (x : Fin q → ℚ) (grad_output : Fin p → ℚ) :
    (Fin q → ℚ) × (Fin n → ℚ) :=
  archGradBackward ops sampled (proxylessTrainCompute ops sampled x).2 grad_output

/-- ProxylessLayerChoice.forward including the eval-mode branch (line 188):
when self.training is false the method falls through to
super().forward(*args, **kwargs), and super() is torch.nn.Module, whose
forward raises NotImplementedError. -/
def proxylessLayerForwardE {n p q : ℕ} (training : Bool)
    (ops : Fin n → Fin p → Fin q → ℚ) (sampled : Fin n) (x : Fin q → ℚ) :
    Except PyErr (Fin p → ℚ) :=
  if training then Except.ok (proxylessTrainCompute ops sampled x).1
  else Except.error PyErr.notImplementedError

/-- ProxylessInputChoice.forward (lines 223-245): in training mode the inputs
are stacked and run_function picks entry active_sample of the stack; in eval
mode the method falls through to super().forward, i.e. torch.nn.Module.forward,
which raises NotImplementedError. -/
def proxylessInputForwardE {m L : ℕ} (training : Bool)
    (inputs : Fin m → Fin L → ℚ) (sampled : Fin m) : Except PyErr (Fin L → ℚ) :=
  if training then Except.ok (inputs sampled)
  else Except.error PyErr.notImplementedError

/-- ProxylessLayerChoice.finalize_grad (lines 199-207): when alpha.grad is
absent it is first initialized to zeros; then the nested loops over i and j
accumulate binary_grads[j] * probs[j] * ((1 if i = j else 0) - probs[i]) into
alpha.grad[i], with probs = softmax(alpha) computed once before the loops.
The loop body only ever adds terms into entry i, so the final content of entry
i is the double-indexed sum below. -/
def finalizeGrad (e : ℚ → ℚ) {n : ℕ} (alpha binary_grads : Fin n → ℚ)
    (alphaGrad : Option (Fin n → ℚ)) : Fin n → ℚ :=
  let g0 := alphaGrad.getD (fun _ => 0)
  let probs := softmaxWith e alpha
  fun i => g0 i + ∑ j, binary_grads j * probs j * ((if i = j then (1 : ℚ) else 0) - probs i)

/-- Mutable state of a ProxylessLayerChoice with n candidates: the alpha
parameter, the binary-gate parameter, its gradient buffer (None before it is
ever created) and the index recorded by the latest resample. -/
structure ProxylessLayerState (n : ℕ) where
  alpha : Fin n → ℚ
  binaryGates : Fin n → ℚ
  binaryGatesGrad : Option (Fin n → ℚ)
  sampled : Option (Fin n)

/-- ProxylessLayerChoice.resample (lines 190-197): the draw argument models
torch.multinomial(F.softmax(alpha), 1)[0].  The method records the drawn
index, zeroes the gate, creates a zero gradient buffer for it, and sets entry
draw to 1.  The method body has no return statement, so the call returns
None, modelled as the second component none. -/
def ProxylessLayerState.resample {n : ℕ} (s : ProxylessLayerState n) (draw : Fin n) :
    ProxylessLayerState n × Option (Fin n) :=
  ({ s with
      sampled := some draw
      binaryGates := fun i => if i = draw then 1 else 0
      binaryGatesGrad := some (fun _ => 0) },
   none)

/-- torch.argmax over a nonempty vector: fold over all indices keeping the
first index whose value is strictly larger than the current best. -/
def argmaxIdx {m : ℕ} (v : Fin (m + 1) → ℚ) : Fin (m + 1) :=
  (List.finRange (m + 1)).foldl (fun best i => if v best < v i then i else best)
    ⟨0, Nat.succ_pos m⟩

/-- ProxylessLayerChoice.export (lines 209-210): torch.argmax(self.alpha). -/
def ProxylessLayerState.export {m : ℕ} (s : ProxylessLayerState (m + 1)) : Fin (m + 1) :=
  argmaxIdx s.alpha

/-- Mutable state of a ProxylessInputChoice with n candidate inputs. -/
structure ProxylessInputState (n : ℕ) where
  alpha : Fin n → ℚ
  binaryGates : Fin n → ℚ
  binaryGatesGrad : Option (Fin n → ℚ)
  sampled : Option (Fin n)

/-- ProxylessInputChoice.resample (lines 248-257): an explicit sample argument
is used when supplied, otherwise the multinomial draw (oracle argument) is
taken.  The gate is zeroed, the gradient buffer zero-filled, entry sample set
to 1, and the method returns self.sampled, i.e. the chosen index. -/
def ProxylessInputState.resample {n : ℕ} (s : ProxylessInputState n)
    (sample : Option (Fin n)) (draw : Fin n) : ProxylessInputState n × Fin n :=
  let smp := sample.getD draw
  ({ s with
      sampled := some smp
      binaryGates := fun i => if i = smp then 1 else 0
      binaryGatesGrad := some (fun _ => 0) },
   smp)

/-- One observable action of DartsModel.training_step (lines 81-105). -/
inductive StepEvent where
  | resampleAll : StepEvent
  | zeroGradArc : StepEvent
  | zeroGradW : ℕ → StepEvent
  | forwardBackwardVal : StepEvent
  | forwardBackwardTrain : StepEvent
  | finalizeGradAll : StepEvent
  | arcStep : StepEvent
  | wStep : ℕ → StepEvent
deriving DecidableEq, Repr

/-- The exact sequence of actions performed by DartsModel.training_step
(lines 81-105), which ProxylessModel inherits unchanged: phase 1 resamples the
architecture, zeroes the architecture optimizer, runs one forward+backward on
the validation-stream batch and immediately steps the architecture optimizer;
phase 2 resamples again, zeroes every weight optimizer, runs one
forward+backward on the training-stream batch and steps every weight
optimizer.  numW is the number of weight optimizers (opts[1:]). -/
def trainingStepTrace (numW : ℕ) : List StepEvent :=
  [StepEvent.resampleAll, StepEvent.zeroGradArc, StepEvent.forwardBackwardVal,
   StepEvent.arcStep, StepEvent.resampleAll]
  ++ (List.range numW).map StepEvent.zeroGradW
  ++ [StepEvent.forwardBackwardTrain]
  ++ (List.range numW).map StepEvent.wStep

/-- One entry of self.nas_modules: the module's label (m.name) and, modelling
Python reference semantics, the index of the alpha parameter it currently
points at inside an ambient store of parameter vectors. -/
structure NasModule where
  name : String
  alphaRef : ℕ
deriving DecidableEq, Repr

/-- Association-list lookup by label, modelling the Python dict ctrl_params
(one entry per key, insertion order preserved). -/
def alookup (k : String) : List (String × ℕ) → Option ℕ
  | [] => none
  | (k2, v) :: rest => if k2 = k then some v else alookup k rest

/-- Size of the alpha vector a reference points at (m.alpha.size()). -/
def alphaSize (store : List (List ℚ)) (r : ℕ) : ℕ := (store.getD r []).length

/-- DartsModel.configure_architecture_optimizers (lines 117-127): walk
nas_modules in order; on a label seen before, assert equal alpha sizes
(AssertionError otherwise) and overwrite the module's alpha reference with the
stored one (m.alpha = ctrl_params[m.name]); on a new label record the module's
own alpha in ctrl_params.  Returns the rewired module list together with the
final ctrl_params; the optimizer is then built over
list(ctrl_params.values()). -/
def dartsConfigure (store : List (List ℚ)) :
    List NasModule → List (String × ℕ) →
    Except PyErr (List NasModule × List (String × ℕ))
  | [], ctrl => Except.ok ([], ctrl)
  | m :: rest, ctrl =>
    match alookup m.name ctrl with
    | some r =>
      if alphaSize store m.alphaRef = alphaSize store r then
        match dartsConfigure store rest ctrl with
        | Except.ok (ms, c) => Except.ok ({ m with alphaRef := r } :: ms, c)
        | Except.error err => Except.error err
      else Except.error PyErr.assertionError
    | none =>
      match dartsConfigure store rest (ctrl ++ [(m.name, m.alphaRef)]) with
      | Except.ok (ms, c) => Except.ok (m :: ms, c)
      | Except.error err => Except.error err

/-- ProxylessModel.configure_architecture_optimizers (lines 279-282): the
optimizer parameter list is [m.alpha for _, m in self.nas_modules], taken
as-is with no deduplication, no size assertion and no re-aliasing of the
modules. -/
def proxylessArchParams (mods : List NasModule) : List ℕ :=
  mods.map NasModule.alphaRef

/-- A torch module tree for the replacement engine: a flag telling whether the
node is an instance of a recognized choice type (LayerChoice / InputChoice),
its label (child.key) and its child modules in named_children order. -/
inductive PyModule where
  | mk : Bool → String → List PyModule → PyModule

/-- Whether the node matches a recognized choice kind. -/
def PyModule.isChoice : PyModule → Bool
  | PyModule.mk c _ _ => c

/-- The label (key) of the node. -/
def PyModule.label : PyModule → String
  | PyModule.mk _ l _ => l

/-- The children of the node. -/
def PyModule.children : PyModule → List PyModule
  | PyModule.mk _ _ ch => ch

/-- The visitor apply of _replace_module_with_type (utils.py lines 129-141)
acting on a list of children: a child matching the choice kind is replaced by
init_fn(child) and recorded as (child.key, new instance); otherwise the
visitor recurses into the child.  Note the matched branch does not recurse. -/
def replaceChildren (f : PyModule → PyModule) :
    List PyModule → List PyModule × List (String × PyModule)
  | [] => ([], [])
  | PyModule.mk c l ch :: rest =>
    if c then
      let nc := f (PyModule.mk c l ch)
      let tl := replaceChildren f rest
      (nc :: tl.1, (l, nc) :: tl.2)
    else
      let inner := replaceChildren f ch
      let tl := replaceChildren f rest
      (PyModule.mk c l inner.1 :: tl.1, inner.2 ++ tl.2)

/-- _replace_module_with_type on the root module, starting from an empty
registry: apply(root_module) visits the root's children and returns the
accumulated (label, instance) list. -/
def replaceModule (f : PyModule → PyModule) (root : PyModule) :
    PyModule × List (String × PyModule) :=
  match root with
  | PyModule.mk c l ch =>
    let r := replaceChildren f ch
    (PyModule.mk c l r.1, r.2)

/-- Reference definition following the amended claim: the recorded pairs are
exactly the topmost recognized choice nodes, in depth-first order, each paired
with the instance the class table builds for it; choice nodes nested below
another recognized choice node are not collected. -/
def topChoiceRecords (f : PyModule → PyModule) :
    List PyModule → List (String × PyModule)
  | [] => []
  | PyModule.mk c l ch :: rest =>
    if c then (l, f (PyModule.mk c l ch)) :: topChoiceRecords f rest
    else topChoiceRecords f ch ++ topChoiceRecords f rest

/-- Iterator state of InterleavedTrainValDataLoader: the unconsumed suffix of
the train iterator and of the val iterator. -/
structure ILState (α β : Type) where
  tRem : List α
  vRem : List β

/-- InterleavedTrainValDataLoader.__next__ (utils.py lines 237-261): take the
next train batch, restarting the train iterator when it is exhausted and train
is the strictly shorter stream (StopIteration otherwise, also when the
restarted iterator is itself empty); then the next val batch, restarting the
val iterator when it is exhausted and val is the strictly shorter stream.
eqLen and trainLonger are the flags computed in __init__ from the full
dataloader lengths. -/
def ilNext (tF : List α) (vF : List β) (eqLen trainLonger : Bool)
    (s : ILState α β) : Option ((α × β) × ILState α β) :=
  let tStep : Option (α × List α) :=
    match s.tRem with
    | t :: ts => some (t, ts)
    | [] =>
      if eqLen || trainLonger then none
      else
        match tF with
        | [] => none
        | t :: ts => some (t, ts)
  match tStep with
  | none => none
  | some (t, ts) =>
    match s.vRem with
    | v :: vs => some ((t, v), ⟨ts, vs⟩)
    | [] =>
      if !trainLonger then none
      else
        match vF with
        | [] => none
        | v :: vs => some ((t, v), ⟨ts, vs⟩)

/-- Drive __next__ until StopIteration (or until the fuel bound, which the
caller picks larger than any possible number of yields). -/
def ilRun (tF : List α) (vF : List β) (eqLen trainLonger : Bool) :
    ℕ → ILState α β → List (α × β)
  | 0, _ => []
  | Nat.succ fuel, s =>
    match ilNext tF vF eqLen trainLonger s with
    | none => []
    | some (p, s2) => p :: ilRun tF vF eqLen trainLonger fuel s2

/-- The full sequence of (train_batch, val_batch) pairs one epoch of
InterleavedTrainValDataLoader yields, with the flags of __init__. -/
def interleavedPairs (tF : List α) (vF : List β) : List (α × β) :=
  ilRun tF vF (tF.length == vF.length) (decide (vF.length < tF.length))
    (tF.length + vF.length + 1) ⟨tF, vF⟩

/-- First n items of the stream that starts with cur and then repeats full
forever (empty once both are exhausted and full is empty): the shape of the
restarted shorter stream in the interleaved supplier. -/
def takeCyc (full : List γ) (cur : List γ) : ℕ → List γ
  | 0 => []
  | Nat.succ n =>
    match cur with
    | v :: vs => v :: takeCyc full vs n
    | [] =>
      match full with
      | [] => []
      | v :: vs => v :: takeCyc full vs n

/-- A concrete ProxylessLayerChoice state with one candidate, used to witness
the return value of resample. -/
def c6state : ProxylessLayerState 1 :=
  { alpha := fun _ => 0
    binaryGates := fun _ => 0
    binaryGatesGrad := none
    sampled := none }

/-- The module tree used to exhibit the nested-choice behaviour of the
replacement engine: a choice node labelled inner. -/
def c8inner : PyModule := PyModule.mk true "inner" []

/-- A choice node labelled outer whose single candidate submodule is the inner
choice node. -/
def c8outer : PyModule := PyModule.mk true "outer" [c8inner]

/-- A non-choice root whose only child is the outer choice node. -/
def c8root : PyModule := PyModule.mk false "root" [c8outer]

/-- A concrete init_fn standing for the class-table constructor: it wraps the
matched node in a non-choice instance, keeping the candidates as children. -/
def c8initFn : PyModule → PyModule :=
  fun m => PyModule.mk false (String.append "repl_" m.label) m.children

/- ------------------------------------------------------------------ -/
/- Theorems.                                                           -/
/- ------------------------------------------------------------------ -/

/-- C1: the bi-level training step of DartsModel (inherited unchanged by
ProxylessModel) runs Phase A as resample, zero the architecture optimizer,
exactly one forward+backward on the validation-stream batch, and then steps
the architecture optimizer immediately: no finalize_grad call occurs anywhere
in the step, although the claim (and the spec) require it between the backward
pass and the architecture optimizer step for sampled-path nodes. -/
theorem c1_no_finalize_grad (numW : ℕ) :
    StepEvent.finalizeGradAll ∉ trainingStepTrace numW ∧
    (trainingStepTrace numW).take 4 =
      [StepEvent.resampleAll, StepEvent.zeroGradArc, StepEvent.forwardBackwardVal,
       StepEvent.arcStep] ∧
    (trainingStepTrace numW).count StepEvent.forwardBackwardVal = 1 := by
  refine ⟨?_, rfl, ?_⟩
  · simp [trainingStepTrace, List.mem_append, List.mem_map]
  · have h1 : ((List.range numW).map StepEvent.zeroGradW).count
        StepEvent.forwardBackwardVal = 0 := List.count_eq_zero.mpr (by simp)
    have h2 : ((List.range numW).map StepEvent.wStep).count
        StepEvent.forwardBackwardVal = 0 := List.count_eq_zero.mpr (by simp)
    simp [trainingStepTrace, List.count_append, h1, h2]

/-- C2: in training mode the sampled-path layer choice computes only the
sampled candidate on the detached input and returns exactly that candidate's
output (the result mentions no other candidate), saving the detached input
together with that output; on backward, the input gradient is the
vector-Jacobian product through the single executed candidate (and this is
the genuine adjoint of that candidate's forward map), while the binary-gate
gradient at every index k is the full inner product of candidate k's forward
output at the saved detached input with the incoming output gradient,
obtained from forward evaluations only. -/
theorem c2_sampled_path_gradients {n p q : ℕ} (ops : Fin n → Fin p → Fin q → ℚ)
    (sampled : Fin n) (x : Fin q → ℚ) (g : Fin p → ℚ) :
    (proxylessTrainCompute ops sampled x).1 = applyLin (ops sampled) x ∧
    (proxylessTrainCompute ops sampled x).2 = (x, applyLin (ops sampled) x) ∧
    (proxylessTrainBackward ops sampled x g).1 = vjpLin (ops sampled) g ∧
    (∀ y : Fin q → ℚ,
      dotF (applyLin (ops sampled) y) g = dotF y (vjpLin (ops sampled) g)) ∧
    (∀ k, (proxylessTrainBackward ops sampled x g).2 k =
      dotF (applyLin (ops k) x) g) := by
  refine ⟨rfl, rfl, rfl, ?_, ?_⟩
  · intro y
    simp only [dotF, applyLin, vjpLin, Finset.sum_mul, Finset.mul_sum]
    rw [Finset.sum_comm]
    exact Finset.sum_congr rfl fun j _ => Finset.sum_congr rfl fun i _ => by ring
  · intro k
    by_cases hk : k = sampled
    · subst hk
      simp [proxylessTrainBackward, archGradBackward, plBackwardFunction,
        proxylessTrainCompute, archGradForward, plRunFunction]
    · simp [proxylessTrainBackward, archGradBackward, plBackwardFunction,
        proxylessTrainCompute, archGradForward, plRunFunction, hk]

/-- C3: ProxylessLayerChoice.finalize_grad adds to alpha.grad (taking a zero
initial gradient when it is absent) exactly the softmax-Jacobian conversion of
the raw gate gradient, and for two candidates the result equals the closed
form of the claim.  (ProxylessInputChoice.finalize_grad is intended to do the
same, but it reads the attribute num_input_candidates, which is never set, so
it raises AttributeError; that makes the claim a code bug, and this theorem
verifies the formula on the working layer-choice path.) -/
theorem c3_finalize_grad_formula (e : ℚ → ℚ) {n : ℕ} (alpha bg g0 : Fin n → ℚ)
    (i : Fin n) (alpha2 bg2 : Fin 2 → ℚ) :
    finalizeGrad e alpha bg none i =
      ∑ j, bg j * softmaxWith e alpha j *
        ((if i = j then (1 : ℚ) else 0) - softmaxWith e alpha i) ∧
    finalizeGrad e alpha bg (some g0) i = g0 i +
      ∑ j, bg j * softmaxWith e alpha j *
        ((if i = j then (1 : ℚ) else 0) - softmaxWith e alpha i) ∧
    finalizeGrad e alpha2 bg2 none 0 =
      bg2 0 * softmaxWith e alpha2 0 * (1 - softmaxWith e alpha2 0)
        - bg2 1 * softmaxWith e alpha2 1 * softmaxWith e alpha2 0 ∧
    finalizeGrad e alpha2 bg2 none 1 =
      bg2 1 * softmaxWith e alpha2 1 * (1 - softmaxWith e alpha2 1)
        - bg2 0 * softmaxWith e alpha2 0 * softmaxWith e alpha2 1 := by
  refine ⟨by simp [finalizeGrad], rfl, ?_, ?_⟩
  · simp [finalizeGrad, Fin.sum_univ_two]
    ring
  · simp [finalizeGrad, Fin.sum_univ_two]
    ring

/-- C4: the continuous-relaxation forward of both DartsLayerChoice and
DartsInputChoice returns the softmax-weighted sum over every candidate; the
weights are a genuine convex combination (they sum to one and each is strictly
positive) whenever the exponential is positive, so every candidate's output
contributes to every call. -/
theorem c4_darts_forward (e : ℚ → ℚ) {m Li Lo L : ℕ}
    (ops : Fin (m + 1) → (Fin Li → ℚ) → (Fin Lo → ℚ)) (alpha : Fin (m + 1) → ℚ)
    (x : Fin Li → ℚ) (inputs : Fin (m + 1) → Fin L → ℚ)
    (he : ∀ a, 0 < e a) :
    (∀ o, dartsLayerForward e ops alpha x o =
      ∑ i, softmaxWith e alpha i * ops i x o) ∧
    (∀ o, dartsInputForward e alpha inputs o =
      ∑ i, softmaxWith e alpha i * inputs i o) ∧
    (∑ i, softmaxWith e alpha i = 1) ∧
    (∀ i, 0 < softmaxWith e alpha i) := by
  have hS : 0 < ∑ j, e (alpha j) :=
    Finset.sum_pos (fun j _ => he (alpha j)) Finset.univ_nonempty
  refine ⟨fun o => rfl, fun o => rfl, ?_, fun i => div_pos (he (alpha i)) hS⟩
  simp only [softmaxWith]
  rw [← Finset.sum_div]
  exact div_self (ne_of_gt hS)

/-- C4 witness: the theorem instantiated at a concrete two-candidate choice
with the constant exponential. -/
theorem c4_darts_forward_witness :
    (∀ _a : ℚ, 0 < (1 : ℚ)) ∧
    ((∀ o, dartsLayerForward (fun _ => (1 : ℚ))
        (fun (_ : Fin 2) (y : Fin 1 → ℚ) => y) (fun _ => 0) (fun _ => 3) o =
      ∑ i : Fin 2, softmaxWith (fun _ => (1 : ℚ)) (fun _ => (0 : ℚ)) i *
        (fun (_ : Fin 2) (y : Fin 1 → ℚ) => y) i (fun _ => 3) o) ∧
    (∀ o, dartsInputForward (fun _ => (1 : ℚ)) (fun _ => (0 : ℚ))
        (fun (_ : Fin 2) (_ : Fin 1) => (5 : ℚ)) o =
      ∑ i : Fin 2, softmaxWith (fun _ => (1 : ℚ)) (fun _ => (0 : ℚ)) i *
        (fun (_ : Fin 2) (_ : Fin 1) => (5 : ℚ)) i o) ∧
    (∑ i : Fin 2, softmaxWith (fun _ => (1 : ℚ)) (fun _ => (0 : ℚ)) i = 1) ∧
    (∀ i : Fin 2, 0 < softmaxWith (fun _ => (1 : ℚ)) (fun _ => (0 : ℚ)) i)) :=
  ⟨fun _ => one_pos,
   c4_darts_forward (fun _ => (1 : ℚ)) (fun _ y => y) (fun _ => 0) (fun _ => 3)
     (fun _ _ => 5) (fun _ => one_pos)⟩

/-- C5: in eval mode (training flag false) both sampled-path forwards fall
through to torch.nn.Module.forward via super(), which raises
NotImplementedError instead of running the sampled candidate. -/
theorem c5_eval_forward_raises {n p q m L : ℕ} (ops : Fin n → Fin p → Fin q → ℚ)
    (sampled : Fin n) (x : Fin q → ℚ) (inputs : Fin m → Fin L → ℚ)
    (sampledI : Fin m) :
    proxylessLayerForwardE false ops sampled x =
      Except.error PyErr.notImplementedError ∧
    proxylessInputForwardE false inputs sampledI =
      Except.error PyErr.notImplementedError :=
  ⟨rfl, rfl⟩

/-- C6 counterexample: ProxylessLayerChoice.resample has no return statement,
so it returns None rather than the chosen index, refuting the claim that for
every sampled-path choice node resample returns the chosen index. -/
theorem c6_resample_returns_none_cex :
    (c6state.resample ⟨0, Nat.one_pos⟩).2 ≠ some ⟨0, Nat.one_pos⟩ := by
  simp [c6state, ProxylessLayerState.resample]

/-- C6 amended: after resample on a sampled-path node the binary gate is
one-hot at the sampled index (exactly one entry equals 1), the gate gradient
buffer is zero-filled and the sampled index is recorded; the input-choice
variant accepts an optional caller-supplied sample and returns the chosen
index, while the layer-choice variant takes no sample argument and returns
None. -/
theorem c6_resample_amended {n : ℕ} (s : ProxylessLayerState n) (draw : Fin n)
    (si : ProxylessInputState n) (sample : Option (Fin n)) (draw2 : Fin n) :
    ((s.resample draw).1.binaryGates draw = 1) ∧
    (∀ i, i ≠ draw → (s.resample draw).1.binaryGates i = 0) ∧
    ((Finset.univ.filter fun i => (s.resample draw).1.binaryGates i = 1).card = 1) ∧
    ((s.resample draw).1.binaryGatesGrad = some fun _ => 0) ∧
    ((s.resample draw).1.sampled = some draw) ∧
    ((s.resample draw).2 = none) ∧
    ((si.resample sample draw2).1.binaryGates (sample.getD draw2) = 1) ∧
    (∀ i, i ≠ sample.getD draw2 → (si.resample sample draw2).1.binaryGates i = 0) ∧
    ((si.resample sample draw2).1.binaryGatesGrad = some fun _ => 0) ∧
    ((si.resample sample draw2).1.sampled = some (sample.getD draw2)) ∧
    ((si.resample sample draw2).2 = sample.getD draw2) := by
  have hcard : (Finset.univ.filter
      fun i => (s.resample draw).1.binaryGates i = 1) = {draw} := by
    ext i
    by_cases h : i = draw <;>
      simp [ProxylessLayerState.resample, h]
  refine ⟨by simp [ProxylessLayerState.resample],
    fun i hi => by simp [ProxylessLayerState.resample, hi],
    by rw [hcard]; exact Finset.card_singleton draw,
    rfl, rfl, rfl,
    by simp [ProxylessInputState.resample],
    fun i hi => by simp [ProxylessInputState.resample, hi],
    rfl, rfl, rfl⟩

/-- Helper for C10: the fold realizing torch.argmax returns an index whose
value is at least the starting value and at least every scanned value. -/
theorem foldl_argmax_spec {k : ℕ} (v : Fin k → ℚ) :
    ∀ (l : List (Fin k)) (b : Fin k),
      v b ≤ v (l.foldl (fun best i => if v best < v i then i else best) b) ∧
      ∀ i ∈ l, v i ≤ v (l.foldl (fun best i => if v best < v i then i else best) b) := by
  intro l
  induction l with
  | nil => exact fun b => ⟨le_refl _, by simp⟩
  | cons hd tl ih =>
    intro b
    have hb : v b ≤ v (if v b < v hd then hd else b) := by
      by_cases h : v b < v hd <;> simp [h]
      exact le_of_lt h
    have hhd : v hd ≤ v (if v b < v hd then hd else b) := by
      by_cases h : v b < v hd <;> simp [h]
      exact le_of_not_lt h
    have := ih (if v b < v hd then hd else b)
    refine ⟨le_trans hb this.1, ?_⟩
    intro i hi
    rcases List.mem_cons.mp hi with h | h
    · subst h
      exact le_trans hhd this.1
    · exact this.2 i h

/-- C10: export is argmax(alpha) — it attains the maximum of alpha — and it is
invariant under resample, which never modifies alpha. -/
theorem c10_export_argmax {m : ℕ} (s : ProxylessLayerState (m + 1))
    (draw : Fin (m + 1)) :
    ((s.resample draw).1).export = s.export ∧
    ((s.resample draw).1).alpha = s.alpha ∧
    (∀ j, s.alpha j ≤ s.alpha s.export) := by
  refine ⟨rfl, rfl, fun j => ?_⟩
  exact (foldl_argmax_spec s.alpha (List.finRange (m + 1)) ⟨0, Nat.succ_pos m⟩).2
    j (List.mem_finRange j)

/-- Helper: a successful association-list lookup survives appending. -/
theorem alookup_append_left (k : String) (v : ℕ) :
    ∀ (l1 l2 : List (String × ℕ)), alookup k l1 = some v →
      alookup k (l1 ++ l2) = some v := by
  intro l1
  induction l1 with
  | nil => intro l2 h; simp [alookup] at h
  | cons p rest ih =>
    intro l2 h
    obtain ⟨k2, v2⟩ := p
    by_cases hk : k2 = k
    · simp [alookup, hk] at h ⊢
      exact h
    · simp [alookup, hk] at h ⊢
      exact ih l2 h

/-- Helper: a failed lookup defers to the appended tail. -/
theorem alookup_append_right (k : String) :
    ∀ (l1 l2 : List (String × ℕ)), alookup k l1 = none →
      alookup k (l1 ++ l2) = alookup k l2 := by
  intro l1
  induction l1 with
  | nil => intro l2 _; rfl
  | cons p rest ih =>
    intro l2 h
    obtain ⟨k2, v2⟩ := p
    by_cases hk : k2 = k
    · simp [alookup, hk] at h
    · simp [alookup, hk] at h ⊢
      exact ih l2 h

/-- Helper: lookup fails exactly when the key is absent. -/
theorem alookup_none_iff (k : String) :
    ∀ l : List (String × ℕ), alookup k l = none ↔ k ∉ l.map Prod.fst := by
  intro l
  induction l with
  | nil => simp [alookup]
  | cons p rest ih =>
    obtain ⟨k2, v2⟩ := p
    by_cases hk : k2 = k
    · simp [alookup, hk]
    · have hunf : alookup k ((k2, v2) :: rest) = alookup k rest := by
        simp [alookup, hk]
      rw [hunf, ih, List.map_cons]
      constructor
      · intro h hmem
        rcases List.mem_cons.mp hmem with heq | hmem2
        · exact hk heq.symm
        · exact h hmem2
      · intro h hmem
        exact h (List.mem_cons_of_mem _ hmem)

/-- Helper: a successful lookup means the key is present. -/
theorem alookup_mem (k : String) (v : ℕ) (l : List (String × ℕ))
    (h : alookup k l = some v) : k ∈ l.map Prod.fst := by
  by_contra hmem
  rw [← alookup_none_iff k l] at hmem
  rw [hmem] at h
  exact Option.noConfusion h

/-- Helper: dartsConfigure only appends to ctrl_params, so any existing
binding survives to the final registry. -/
theorem dartsConfigure_mono (store : List (List ℚ)) :
    ∀ (mods : List NasModule) (ctrl : List (String × ℕ))
      (mods2 : List NasModule) (ctrlF : List (String × ℕ)),
      dartsConfigure store mods ctrl = Except.ok (mods2, ctrlF) →
      ∀ (k : String) (v : ℕ), alookup k ctrl = some v →
        alookup k ctrlF = some v := by
  intro mods
  induction mods with
  | nil =>
    intro ctrl mods2 ctrlF h k v hk
    simp [dartsConfigure] at h
    rw [← h.2]
    exact hk
  | cons m rest ih =>
    intro ctrl mods2 ctrlF h k v hk
    cases hlook : alookup m.name ctrl with
    | some r =>
      by_cases hsize : alphaSize store m.alphaRef = alphaSize store r
      · cases hrec : dartsConfigure store rest ctrl with
        | error err => simp [dartsConfigure, hlook, hsize, hrec] at h
        | ok pr =>
          obtain ⟨ms, c⟩ := pr
          simp [dartsConfigure, hlook, hsize, hrec] at h
          rw [← h.2]
          exact ih ctrl ms c hrec k v hk
      · simp [dartsConfigure, hlook, hsize] at h
    | none =>
      cases hrec : dartsConfigure store rest (ctrl ++ [(m.name, m.alphaRef)]) with
      | error err => simp [dartsConfigure, hlook, hrec] at h
      | ok pr =>
        obtain ⟨ms, c⟩ := pr
        simp [dartsConfigure, hlook, hrec] at h
        rw [← h.2]
        exact ih _ ms c hrec k v (alookup_append_left k v ctrl _ hk)

/-- Helper: after a successful dartsConfigure, every rewired module's label
maps, in the final registry, to exactly the alpha reference the module holds:
the registry is the single source of truth for every label. -/
theorem dartsConfigure_mem (store : List (List ℚ)) :
    ∀ (mods : List NasModule) (ctrl : List (String × ℕ))
      (mods2 : List NasModule) (ctrlF : List (String × ℕ)),
      dartsConfigure store mods ctrl = Except.ok (mods2, ctrlF) →
      ∀ m2 ∈ mods2, alookup m2.name ctrlF = some m2.alphaRef := by
  intro mods
  induction mods with
  | nil =>
    intro ctrl mods2 ctrlF h m2 hm2
    simp [dartsConfigure] at h
    rw [h.1] at hm2
    exact absurd hm2 (List.not_mem_nil m2)
  | cons m rest ih =>
    intro ctrl mods2 ctrlF h m2 hm2
    cases hlook : alookup m.name ctrl with
    | some r =>
      by_cases hsize : alphaSize store m.alphaRef = alphaSize store r
      · cases hrec : dartsConfigure store rest ctrl with
        | error err => simp [dartsConfigure, hlook, hsize, hrec] at h
        | ok pr =>
          obtain ⟨ms, c⟩ := pr
          simp [dartsConfigure, hlook, hsize, hrec] at h
          rw [← h.1] at hm2
          rw [← h.2]
          rcases List.mem_cons.mp hm2 with heq | htail
          · subst heq
            exact dartsConfigure_mono store rest ctrl ms c hrec m.name r hlook
          · exact ih ctrl ms c hrec m2 htail
      · simp [dartsConfigure, hlook, hsize] at h
    | none =>
      cases hrec : dartsConfigure store rest (ctrl ++ [(m.name, m.alphaRef)]) with
      | error err => simp [dartsConfigure, hlook, hrec] at h
      | ok pr =>
        obtain ⟨ms, c⟩ := pr
        simp [dartsConfigure, hlook, hrec] at h
        rw [← h.1] at hm2
        rw [← h.2]
        rcases List.mem_cons.mp hm2 with heq | htail
        · subst heq
          have hstep : alookup m2.name (ctrl ++ [(m2.name, m2.alphaRef)]) =
              some m2.alphaRef := by
            rw [alookup_append_right m2.name ctrl _ hlook]
            simp [alookup]
          exact dartsConfigure_mono store rest _ ms c hrec m2.name m2.alphaRef hstep
        · exact ih _ ms c hrec m2 htail

/-- Helper: dartsConfigure keeps the registry keys duplicate-free. -/
theorem dartsConfigure_keys_nodup (store : List (List ℚ)) :
    ∀ (mods : List NasModule) (ctrl : List (String × ℕ))
      (mods2 : List NasModule) (ctrlF : List (String × ℕ)),
      dartsConfigure store mods ctrl = Except.ok (mods2, ctrlF) →
      (ctrl.map Prod.fst).Nodup → (ctrlF.map Prod.fst).Nodup := by
  intro mods
  induction mods with
  | nil =>
    intro ctrl mods2 ctrlF h hnd
    simp [dartsConfigure] at h
    rw [← h.2]
    exact hnd
  | cons m rest ih =>
    intro ctrl mods2 ctrlF h hnd
    cases hlook : alookup m.name ctrl with
    | some r =>
      by_cases hsize : alphaSize store m.alphaRef = alphaSize store r
      · cases hrec : dartsConfigure store rest ctrl with
        | error err => simp [dartsConfigure, hlook, hsize, hrec] at h
        | ok pr =>
          obtain ⟨ms, c⟩ := pr
          simp [dartsConfigure, hlook, hsize, hrec] at h
          rw [← h.2]
          exact ih ctrl ms c hrec hnd
      · simp [dartsConfigure, hlook, hsize] at h
    | none =>
      cases hrec : dartsConfigure store rest (ctrl ++ [(m.name, m.alphaRef)]) with
      | error err => simp [dartsConfigure, hlook, hrec] at h
      | ok pr =>
        obtain ⟨ms, c⟩ := pr
        simp [dartsConfigure, hlook, hrec] at h
        rw [← h.2]
        refine ih _ ms c hrec ?_
        have hnotmem : m.name ∉ ctrl.map Prod.fst :=
          (alookup_none_iff m.name ctrl).mp hlook
        have hdisj : (ctrl.map Prod.fst).Disjoint [m.name] := by
          intro a ha hb
          rw [List.mem_singleton] at hb
          subst hb
          exact hnotmem ha
        rw [List.map_append, List.nodup_append]
        exact ⟨hnd, List.nodup_singleton _, by simpa using hdisj⟩

/-- Helper: the final registry keys are exactly the starting keys plus the
labels of the processed modules. -/
theorem dartsConfigure_keys_iff (store : List (List ℚ)) :
    ∀ (mods : List NasModule) (ctrl : List (String × ℕ))
      (mods2 : List NasModule) (ctrlF : List (String × ℕ)),
      dartsConfigure store mods ctrl = Except.ok (mods2, ctrlF) →
      ∀ k, k ∈ ctrlF.map Prod.fst ↔
        (k ∈ ctrl.map Prod.fst ∨ k ∈ mods.map NasModule.name) := by
  intro mods
  induction mods with
  | nil =>
    intro ctrl mods2 ctrlF h k
    simp [dartsConfigure] at h
    rw [← h.2]
    simp
  | cons m rest ih =>
    intro ctrl mods2 ctrlF h k
    cases hlook : alookup m.name ctrl with
    | some r =>
      by_cases hsize : alphaSize store m.alphaRef = alphaSize store r
      · cases hrec : dartsConfigure store rest ctrl with
        | error err => simp [dartsConfigure, hlook, hsize, hrec] at h
        | ok pr =>
          obtain ⟨ms, c⟩ := pr
          simp [dartsConfigure, hlook, hsize, hrec] at h
          rw [← h.2]
          have hmem := alookup_mem m.name r ctrl hlook
          rw [ih ctrl ms c hrec k]
          simp only [List.map_cons, List.mem_cons]
          constructor
          · rintro (hk | hk)
            · exact Or.inl hk
            · exact Or.inr (Or.inr hk)
          · rintro (hk | hk | hk)
            · exact Or.inl hk
            · exact Or.inl (hk ▸ hmem)
            · exact Or.inr hk
      · simp [dartsConfigure, hlook, hsize] at h
    | none =>
      cases hrec : dartsConfigure store rest (ctrl ++ [(m.name, m.alphaRef)]) with
      | error err => simp [dartsConfigure, hlook, hrec] at h
      | ok pr =>
        obtain ⟨ms, c⟩ := pr
        simp [dartsConfigure, hlook, hrec] at h
        rw [← h.2]
        rw [ih _ ms c hrec k]
        simp only [List.map_append, List.map_cons, List.mem_append,
          List.mem_cons, List.map_nil, List.mem_singleton]
        constructor
        · rintro ((hk | hk) | hk)
          · exact Or.inl hk
          · exact Or.inr (Or.inl (by simpa using hk))
          · exact Or.inr (Or.inr hk)
        · rintro (hk | hk | hk)
          · exact Or.inl (Or.inl hk)
          · exact Or.inl (Or.inr (by simpa using hk))
          · exact Or.inr hk

/-- Helper: on success, a module whose label is already bound in ctrl has an
alpha of the same size as the bound reference (this is what the assertion
checks). -/
theorem dartsConfigure_size_of_lookup (store : List (List ℚ)) :
    ∀ (mods : List NasModule) (ctrl : List (String × ℕ))
      (mods2 : List NasModule) (ctrlF : List (String × ℕ)),
      dartsConfigure store mods ctrl = Except.ok (mods2, ctrlF) →
      ∀ m ∈ mods, ∀ r, alookup m.name ctrl = some r →
        alphaSize store m.alphaRef = alphaSize store r := by
  intro mods
  induction mods with
  | nil => intro ctrl mods2 ctrlF _ m hm; exact absurd hm (List.not_mem_nil m)
  | cons m rest ih =>
    intro ctrl mods2 ctrlF h m1 hm1 r hr
    cases hlook : alookup m.name ctrl with
    | some r0 =>
      by_cases hsize : alphaSize store m.alphaRef = alphaSize store r0
      · cases hrec : dartsConfigure store rest ctrl with
        | error err => simp [dartsConfigure, hlook, hsize, hrec] at h
        | ok pr =>
          obtain ⟨ms, c⟩ := pr
          rcases List.mem_cons.mp hm1 with heq | htail
          · subst heq
            rw [hlook] at hr
            injection hr with hr
            rw [← hr]
            exact hsize
          · exact ih ctrl ms c hrec m1 htail r hr
      · simp [dartsConfigure, hlook, hsize] at h
    | none =>
      cases hrec : dartsConfigure store rest (ctrl ++ [(m.name, m.alphaRef)]) with
      | error err => simp [dartsConfigure, hlook, hrec] at h
      | ok pr =>
        obtain ⟨ms, c⟩ := pr
        rcases List.mem_cons.mp hm1 with heq | htail
        · subst heq
          rw [hlook] at hr
          exact Option.noConfusion hr
        · exact ih _ ms c hrec m1 htail r
            (alookup_append_left m1.name r ctrl _ hr)

/-- Helper: on success, any two processed modules sharing a label have alpha
vectors of equal size in the store. -/
theorem dartsConfigure_same_label_size (store : List (List ℚ)) :
    ∀ (mods : List NasModule) (ctrl : List (String × ℕ))
      (mods2 : List NasModule) (ctrlF : List (String × ℕ)),
      dartsConfigure store mods ctrl = Except.ok (mods2, ctrlF) →
      ∀ m1 ∈ mods, ∀ m2 ∈ mods, m1.name = m2.name →
        alphaSize store m1.alphaRef = alphaSize store m2.alphaRef := by
  intro mods
  induction mods with
  | nil => intro ctrl mods2 ctrlF _ m hm; exact absurd hm (List.not_mem_nil m)
  | cons m rest ih =>
    intro ctrl mods2 ctrlF h m1 hm1 m2 hm2 hname
    cases hlook : alookup m.name ctrl with
    | some r0 =>
      by_cases hsize : alphaSize store m.alphaRef = alphaSize store r0
      · cases hrec : dartsConfigure store rest ctrl with
        | error err => simp [dartsConfigure, hlook, hsize, hrec] at h
        | ok pr =>
          obtain ⟨ms, c⟩ := pr
          rcases List.mem_cons.mp hm1 with he1 | ht1 <;>
            rcases List.mem_cons.mp hm2 with he2 | ht2
          · rw [he1, he2]
          · subst he1
            have h2 : alphaSize store m2.alphaRef = alphaSize store r0 :=
              dartsConfigure_size_of_lookup store rest ctrl ms c hrec m2 ht2 r0
                (hname ▸ hlook)
            rw [hsize, h2]
          · subst he2
            have h1 : alphaSize store m1.alphaRef = alphaSize store r0 :=
              dartsConfigure_size_of_lookup store rest ctrl ms c hrec m1 ht1 r0
                (hname ▸ hlook)
            rw [h1, hsize]
          · exact ih ctrl ms c hrec m1 ht1 m2 ht2 hname
      · simp [dartsConfigure, hlook, hsize] at h
    | none =>
      cases hrec : dartsConfigure store rest (ctrl ++ [(m.name, m.alphaRef)]) with
      | error err => simp [dartsConfigure, hlook, hrec] at h
      | ok pr =>
        obtain ⟨ms, c⟩ := pr
        have hstep : ∀ m3 : NasModule, m3.name = m.name →
            alookup m3.name (ctrl ++ [(m.name, m.alphaRef)]) = some m.alphaRef := by
          intro m3 h3
          rw [h3, alookup_append_right m.name ctrl _ hlook]
          simp [alookup]
        rcases List.mem_cons.mp hm1 with he1 | ht1 <;>
          rcases List.mem_cons.mp hm2 with he2 | ht2
        · rw [he1, he2]
        · subst he1
          exact (dartsConfigure_size_of_lookup store rest _ ms c hrec m2 ht2
            m1.alphaRef (hstep m2 hname.symm)).symm
        · subst he2
          exact dartsConfigure_size_of_lookup store rest _ ms c hrec m1 ht1
            m2.alphaRef (hstep m1 hname)
        · exact ih _ ms c hrec m1 ht1 m2 ht2 hname

/-- C7 counterexample: in the sampled-path (Proxyless) driver the optimizer
parameter list is taken as-is from nas_modules, so with two nodes sharing one
label it holds two entries rather than one entry per distinct label, refuting
the claim for that variant. -/
theorem c7_proxyless_no_dedup_cex :
    ¬ ((proxylessArchParams [⟨"L", 0⟩, ⟨"L", 1⟩]).length =
        (([⟨"L", 0⟩, ⟨"L", 1⟩] : List NasModule).map NasModule.name).dedup.length) := by
  decide

/-- C7 amended, continuous-relaxation side: after a successful
configure_architecture_optimizers run of DartsModel, modules sharing a label
hold the same alpha reference (so any optimizer update leaves them
bit-identical), the optimizer registry keys are duplicate-free and cover
exactly the distinct labels, and the size assertion has enforced equal alpha
sizes for same-label modules; the Proxyless driver performs none of this. -/
theorem c7_darts_dedup_alias (store : List (List ℚ)) (mods mods2 : List NasModule)
    (ctrlF : List (String × ℕ))
    (h : dartsConfigure store mods [] = Except.ok (mods2, ctrlF)) :
    (∀ m1 ∈ mods2, ∀ m2 ∈ mods2, m1.name = m2.name → m1.alphaRef = m2.alphaRef) ∧
    (ctrlF.map Prod.fst).Nodup ∧
    (∀ k, k ∈ ctrlF.map Prod.fst ↔ k ∈ mods.map NasModule.name) ∧
    (∀ m1 ∈ mods, ∀ m2 ∈ mods, m1.name = m2.name →
      alphaSize store m1.alphaRef = alphaSize store m2.alphaRef) ∧
    (∀ m1 ∈ mods2, ∀ m2 ∈ mods2, m1.name = m2.name →
      ∀ store2 : List (List ℚ),
        store2.getD m1.alphaRef [] = store2.getD m2.alphaRef []) := by
  have halias : ∀ m1 ∈ mods2, ∀ m2 ∈ mods2, m1.name = m2.name →
      m1.alphaRef = m2.alphaRef := by
    intro m1 hm1 m2 hm2 hname
    have h1 := dartsConfigure_mem store mods [] mods2 ctrlF h m1 hm1
    have h2 := dartsConfigure_mem store mods [] mods2 ctrlF h m2 hm2
    rw [hname, h2] at h1
    injection h1 with h1
    exact h1.symm
  refine ⟨halias,
    dartsConfigure_keys_nodup store mods [] mods2 ctrlF h (by simp),
    fun k => by
      have := dartsConfigure_keys_iff store mods [] mods2 ctrlF h k
      simpa using this,
    dartsConfigure_same_label_size store mods [] mods2 ctrlF h,
    fun m1 hm1 m2 hm2 hname store2 => by rw [halias m1 hm1 m2 hm2 hname]⟩

/-- C7 witness: the amended theorem applied to two modules sharing label L
with equal-size alpha vectors; dartsConfigure rewires the second module to
the first module's alpha and registers a single optimizer entry. -/
theorem c7_darts_dedup_alias_witness :
    dartsConfigure [[5], [7]] [⟨"L", 0⟩, ⟨"L", 1⟩] [] =
      Except.ok ([⟨"L", 0⟩, ⟨"L", 0⟩], [("L", 0)]) ∧
    ((∀ m1 ∈ ([⟨"L", 0⟩, ⟨"L", 0⟩] : List NasModule),
        ∀ m2 ∈ ([⟨"L", 0⟩, ⟨"L", 0⟩] : List NasModule),
        m1.name = m2.name → m1.alphaRef = m2.alphaRef) ∧
      ((([("L", 0)] : List (String × ℕ)).map Prod.fst).Nodup) ∧
      (∀ k, k ∈ (([("L", 0)] : List (String × ℕ)).map Prod.fst) ↔
        k ∈ (([⟨"L", 0⟩, ⟨"L", 1⟩] : List NasModule).map NasModule.name)) ∧
      (∀ m1 ∈ ([⟨"L", 0⟩, ⟨"L", 1⟩] : List NasModule),
        ∀ m2 ∈ ([⟨"L", 0⟩, ⟨"L", 1⟩] : List NasModule), m1.name = m2.name →
        alphaSize [[5], [7]] m1.alphaRef = alphaSize [[5], [7]] m2.alphaRef) ∧
      (∀ m1 ∈ ([⟨"L", 0⟩, ⟨"L", 0⟩] : List NasModule),
        ∀ m2 ∈ ([⟨"L", 0⟩, ⟨"L", 0⟩] : List NasModule), m1.name = m2.name →
        ∀ store2 : List (List ℚ),
          store2.getD m1.alphaRef [] = store2.getD m2.alphaRef [])) :=
  ⟨by rfl, c7_darts_dedup_alias [[5], [7]] [⟨"L", 0⟩, ⟨"L", 1⟩]
    [⟨"L", 0⟩, ⟨"L", 0⟩] [("L", 0)] (by rfl)⟩

/-- Helper for C8: the records produced by the replacement visitor are exactly
the topmost recognized choice nodes paired with their class-table instances:
the visitor never descends below a matched node. -/
theorem replaceChildren_records (f : PyModule → PyModule) :
    ∀ ms : List PyModule, (replaceChildren f ms).2 = topChoiceRecords f ms
  | [] => by simp [replaceChildren, topChoiceRecords]
  | PyModule.mk c l ch :: rest => by
    cases c
    · simp only [replaceChildren, topChoiceRecords, Bool.false_eq_true, if_false]
      rw [replaceChildren_records f ch, replaceChildren_records f rest]
    · simp only [replaceChildren, topChoiceRecords, if_true]
      rw [replaceChildren_records f rest]

/-- C8 counterexample: with a choice node labelled inner nested as a candidate
child of the matched choice node labelled outer, the replacement engine never
records (or replaces) the inner node, refuting the claim that choice nodes
nested inside another matched node's candidates are replaced and recorded. -/
theorem c8_nested_choice_cex :
    c8inner.isChoice = true ∧ c8outer.isChoice = true ∧
    c8outer.children = [c8inner] ∧
    "inner" ∉ ((replaceModule c8initFn c8root).2.map Prod.fst) := by
  refine ⟨rfl, rfl, rfl, ?_⟩
  simp [c8root, c8outer, c8inner, c8initFn, replaceModule, replaceChildren,
    PyModule.label]

/-- C8 amended: the replacement engine visits every submodule except those
below a matched node: each node matching a recognized choice kind that has no
matched ancestor is replaced in place by the class-table instance and recorded
as a (label, instance) pair in depth-first order, while matched nodes are not
descended into, and the root keeps its own identity. -/
theorem c8_replace_records (f : PyModule → PyModule) (root : PyModule) :
    (replaceModule f root).2 = topChoiceRecords f root.children ∧
    (replaceModule f root).1.label = root.label ∧
    (replaceModule f root).1.isChoice = root.isChoice := by
  cases root with
  | mk c l ch => exact ⟨replaceChildren_records f ch, rfl, rfl⟩

/-- Helper for C9: when the cycled source is nonempty, takeCyc yields exactly
the requested number of items. -/
theorem takeCyc_length {γ : Type} (full : List γ) (hf : full ≠ []) :
    ∀ (n : ℕ) (cur : List γ), (takeCyc full cur n).length = n := by
  intro n
  induction n with
  | zero => intro cur; rfl
  | succ n ih =>
    intro cur
    cases cur with
    | cons v vs => simp [takeCyc, ih]
    | nil =>
      cases full with
      | nil => exact absurd rfl hf
      | cons v vs => simp [takeCyc, ih]

/-- Helper for C9: as long as no restart is needed, takeCyc is just take. -/
theorem takeCyc_of_le {γ : Type} (full : List γ) :
    ∀ (n : ℕ) (cur : List γ), n ≤ cur.length → takeCyc full cur n = cur.take n := by
  intro n
  induction n with
  | zero => intro cur _; rfl
  | succ n ih =>
    intro cur h
    cases cur with
    | nil => exact absurd h (by simp)
    | cons v vs =>
      have := ih vs (by simp only [List.length_cons] at h; omega)
      simp [takeCyc, this]

/-- Helper for C9, train strictly longer than val: the run zips the remaining
train items against the remaining val items extended by restarting val from
its beginning. -/
theorem ilRun_trainLonger {α β : Type} (tF : List α) (vF : List β) (hv : vF ≠ []) :
    ∀ (fuel : ℕ) (tR : List α) (vR : List β), tR.length < fuel →
      ilRun tF vF false true fuel ⟨tR, vR⟩ = tR.zip (takeCyc vF vR tR.length) := by
  intro fuel
  induction fuel with
  | zero => intro tR vR h; exact absurd h (Nat.not_lt_zero _)
  | succ fuel ih =>
    intro tR vR h
    cases tR with
    | nil => rfl
    | cons t ts =>
      cases vR with
      | cons v vs =>
        have hstep : ilRun tF vF false true (fuel + 1) ⟨t :: ts, v :: vs⟩ =
            (t, v) :: ilRun tF vF false true fuel ⟨ts, vs⟩ := rfl
        rw [hstep, ih ts vs (Nat.lt_of_succ_lt_succ h)]
        rfl
      | nil =>
        cases vF with
        | nil => exact absurd rfl hv
        | cons v vs =>
          have hstep : ilRun tF (v :: vs) false true (fuel + 1) ⟨t :: ts, []⟩ =
              (t, v) :: ilRun tF (v :: vs) false true fuel ⟨ts, vs⟩ := rfl
          rw [hstep, ih ts vs (Nat.lt_of_succ_lt_succ h)]
          rfl

/-- Helper for C9, val strictly longer than train: symmetric, the train side
restarts. -/
theorem ilRun_valLonger {α β : Type} (tF : List α) (vF : List β) (ht : tF ≠ []) :
    ∀ (fuel : ℕ) (tR : List α) (vR : List β), vR.length < fuel →
      ilRun tF vF false false fuel ⟨tR, vR⟩ = (takeCyc tF tR vR.length).zip vR := by
  intro fuel
  induction fuel with
  | zero => intro tR vR h; exact absurd h (Nat.not_lt_zero _)
  | succ fuel ih =>
    intro tR vR h
    cases vR with
    | nil =>
      cases tR with
      | nil =>
        cases tF with
        | nil => exact absurd rfl ht
        | cons t ts => rfl
      | cons t ts => rfl
    | cons v vs =>
      cases tR with
      | cons t ts =>
        have hstep : ilRun tF vF false false (fuel + 1) ⟨t :: ts, v :: vs⟩ =
            (t, v) :: ilRun tF vF false false fuel ⟨ts, vs⟩ := rfl
        rw [hstep, ih ts vs (Nat.lt_of_succ_lt_succ h)]
        rfl
      | nil =>
        cases tF with
        | nil => exact absurd rfl ht
        | cons t ts =>
          have hstep : ilRun (t :: ts) vF false false (fuel + 1) ⟨[], v :: vs⟩ =
              (t, v) :: ilRun (t :: ts) vF false false fuel ⟨ts, vs⟩ := rfl
          rw [hstep, ih ts vs (Nat.lt_of_succ_lt_succ h)]
          rfl

/-- Helper for C9, equal lengths: no restart ever happens and the run is a
plain zip. -/
theorem ilRun_equal {α β : Type} (tF : List α) (vF : List β) :
    ∀ (fuel : ℕ) (tR : List α) (vR : List β),
      min tR.length vR.length < fuel →
      ilRun tF vF true false fuel ⟨tR, vR⟩ = tR.zip vR := by
  intro fuel
  induction fuel with
  | zero => intro tR vR h; exact absurd h (Nat.not_lt_zero _)
  | succ fuel ih =>
    intro tR vR h
    cases tR with
    | nil => rfl
    | cons t ts =>
      cases vR with
      | nil => rfl
      | cons v vs =>
        have hstep : ilRun tF vF true false (fuel + 1) ⟨t :: ts, v :: vs⟩ =
            (t, v) :: ilRun tF vF true false fuel ⟨ts, vs⟩ := rfl
        rw [hstep, ih ts vs (by simp only [List.length_cons] at h; omega)]
        rfl

/-- C9 counterexample: with a one-batch train stream and an empty val stream
the interleaved loader yields no pair at all (the restarted val iterator is
immediately exhausted and StopIteration propagates), not max(1, 0) = 1 pairs,
refuting the claim for arbitrary finite streams. -/
theorem c9_empty_stream_cex :
    (interleavedPairs [(0 : ℕ)] ([] : List ℕ)).length ≠
      max [(0 : ℕ)].length ([] : List ℕ).length := by
  decide

/-- C9 amended: whenever the two streams are both nonempty or both empty, one
epoch of the interleaved loader yields exactly max(len train, len val) pairs;
the train components are the train stream restarted cyclically as needed and
the val components the val stream restarted cyclically as needed (so the
longer stream appears exactly once, never truncated, the shorter one restarts
from its beginning, and every pair is complete). -/
theorem c9_interleaved_amended {α β : Type} (tF : List α) (vF : List β)
    (h : tF = [] ↔ vF = []) :
    (interleavedPairs tF vF).length = max tF.length vF.length ∧
    (interleavedPairs tF vF).map Prod.fst = takeCyc tF tF (max tF.length vF.length) ∧
    (interleavedPairs tF vF).map Prod.snd = takeCyc vF vF (max tF.length vF.length) := by
  by_cases htF : tF = []
  · have hvF : vF = [] := h.mp htF
    subst htF
    subst hvF
    exact ⟨rfl, rfl, rfl⟩
  · have hvF : vF ≠ [] := fun hv => htF (h.mpr hv)
    rcases Nat.lt_trichotomy vF.length tF.length with hlt | heq | hgt
    · have hflag1 : (tF.length == vF.length) = false := by
        rw [beq_eq_false_iff_ne]
        omega
      have hflag2 : (decide (vF.length < tF.length)) = true := decide_eq_true hlt
      have hmax : max tF.length vF.length = tF.length := by omega
      have hrun : interleavedPairs tF vF = tF.zip (takeCyc vF vF tF.length) := by
        unfold interleavedPairs
        rw [hflag1, hflag2]
        exact ilRun_trainLonger tF vF hvF _ tF vF (by omega)
      have hlen : (takeCyc vF vF tF.length).length = tF.length :=
        takeCyc_length vF hvF _ _
      refine ⟨?_, ?_, ?_⟩
      · rw [hrun, List.length_zip, hlen, hmax]
        omega
      · rw [hrun, hmax, List.map_fst_zip _ _ (by rw [hlen]),
          takeCyc_of_le tF tF.length tF (le_refl _), List.take_length]
      · rw [hrun, hmax, List.map_snd_zip _ _ (by rw [hlen])]
    · have hflag1 : (tF.length == vF.length) = true := beq_iff_eq.mpr heq.symm
      have hflag2 : (decide (vF.length < tF.length)) = false :=
        decide_eq_false (by omega)
      have hmax : max tF.length vF.length = tF.length := by omega
      have hrun : interleavedPairs tF vF = tF.zip vF := by
        unfold interleavedPairs
        rw [hflag1, hflag2]
        exact ilRun_equal tF vF _ tF vF (by omega)
      refine ⟨?_, ?_, ?_⟩
      · rw [hrun, List.length_zip, hmax]
        omega
      · rw [hrun, hmax, List.map_fst_zip _ _ (by omega),
          takeCyc_of_le tF tF.length tF (le_refl _), List.take_length]
      · rw [hrun, List.map_snd_zip _ _ (by omega),
          takeCyc_of_le vF (max tF.length vF.length) vF (by omega)]
        rw [show max tF.length vF.length = vF.length by omega, List.take_length]
    · have hflag1 : (tF.length == vF.length) = false := by
        rw [beq_eq_false_iff_ne]
        omega
      have hflag2 : (decide (vF.length < tF.length)) = false :=
        decide_eq_false (by omega)
      have hmax : max tF.length vF.length = vF.length := by omega
      have hrun : interleavedPairs tF vF = (takeCyc tF tF vF.length).zip vF := by
        unfold interleavedPairs
        rw [hflag1, hflag2]
        exact ilRun_valLonger tF vF htF _ tF vF (by omega)
      have hlen : (takeCyc tF tF vF.length).length = vF.length :=
        takeCyc_length tF htF _ _
      refine ⟨?_, ?_, ?_⟩
      · rw [hrun, List.length_zip, hlen, hmax]
        omega
      · rw [hrun, hmax, List.map_fst_zip _ _ (by rw [hlen])]
      · rw [hrun, hmax, List.map_snd_zip _ _ (by rw [hlen]),
          takeCyc_of_le vF vF.length vF (le_refl _), List.take_length]

/-- C9 witness: the amended theorem at train length 5 and val length 3,
together with the concrete evaluation showing that the 4th and 5th val items
are the restarted val items 0 and 1. -/
theorem c9_interleaved_witness :
    (([0, 1, 2, 3, 4] : List ℕ) = [] ↔ ([10, 11, 12] : List ℕ) = []) ∧
    interleavedPairs ([0, 1, 2, 3, 4] : List ℕ) ([10, 11, 12] : List ℕ) =
      [(0, 10), (1, 11), (2, 12), (3, 10), (4, 11)] ∧
    ((interleavedPairs ([0, 1, 2, 3, 4] : List ℕ) ([10, 11, 12] : List ℕ)).length =
      max ([0, 1, 2, 3, 4] : List ℕ).length ([10, 11, 12] : List ℕ).length ∧
    (interleavedPairs ([0, 1, 2, 3, 4] : List ℕ) ([10, 11, 12] : List ℕ)).map Prod.fst =
      takeCyc ([0, 1, 2, 3, 4] : List ℕ) ([0, 1, 2, 3, 4] : List ℕ)
        (max ([0, 1, 2, 3, 4] : List ℕ).length ([10, 11, 12] : List ℕ).length) ∧
    (interleavedPairs ([0, 1, 2, 3, 4] : List ℕ) ([10, 11, 12] : List ℕ)).map Prod.snd =
      takeCyc ([10, 11, 12] : List ℕ) ([10, 11, 12] : List ℕ)
        (max ([0, 1, 2, 3, 4] : List ℕ).length ([10, 11, 12] : List ℕ).length)) :=
  ⟨by decide, by decide,
   c9_interleaved_amended ([0, 1, 2, 3, 4] : List ℕ) ([10, 11, 12] : List ℕ) (by decide)⟩

end NasSpec
